import Mathlib

/-!
# Verification of the tix document model (src/extension.ts)

The tix VS Code extension manipulates plain-text todo documents.  This
development embeds the extension's document-transforming logic in Lean.

Modelling conventions:

* A document is modelled as its list of lines, i.e. the full text split on
  `"\n"` (LF line endings; VS Code's `lineCount`/`lineAt` agree with this
  splitting, and a text ending in `"\n"` has an empty final line).
* JavaScript string helpers (`trim`, `endsWith`, `indexOf`, the regex
  `/^(.+?)\s+-\s/`) are re-implemented character by character below;
  JS whitespace (`\s`) is modelled by `Char.isWhitespace`.
* `String.prototype.localeCompare` is modelled as code-point lexicographic
  comparison (`strLe`), which agrees with locale collation on the ASCII
  context names the format uses.
* `Array.prototype.sort` is stable (ES2019); it is modelled by the stable
  `List.mergeSort`.
* `new Date().toISOString().split('T')[0]` (the current UTC date) is
  modelled as an explicit `date : String` parameter.
-/

/-- The fixed `CONTEXT_COLORS` palette of `src/extension.ts` (16 entries). -/
def CONTEXT_COLORS : List String :=
  ["#F48771", "#4EC9B0", "#DCDCAA", "#C586C0", "#6BCB6B", "#CE9178",
   "#9CDCFE", "#D16969", "#4FC1FF", "#E8AB6D", "#B5CEA8", "#DA70D6",
   "#87CEEB", "#F0E68C", "#FF6B9D", "#20B2AA"]

/-- JS `\s` / whitespace, as used by `trim` and the `\s` regex class. -/
def isWsC (c : Char) : Bool := c.isWhitespace

/-- JS `String.prototype.trim`: strip whitespace from both ends. -/
def jsTrim (s : String) : String :=
  String.mk (((s.toList.dropWhile isWsC).reverse.dropWhile isWsC).reverse)

/-- JS `String.prototype.endsWith`. -/
def jsEndsWith (s suf : String) : Bool :=
  suf.toList.isSuffixOf s.toList

/-- Does `cs` start with the pattern `ps` (character-wise)? -/
def hasPrefixC : List Char → List Char → Bool
  | [], _ => true
  | _ :: _, [] => false
  | p :: ps, c :: cs => p = c && hasPrefixC ps cs

/-- Does the pattern occur somewhere in the character list? -/
def hasSubC (pat : List Char) : List Char → Bool
  | [] => hasPrefixC pat []
  | c :: cs => hasPrefixC pat (c :: cs) || hasSubC pat cs

/-- JS `s.indexOf(pat) >= 0` / `s.match(pat-as-literal)`: substring test. -/
def containsSub (s pat : String) : Bool :=
  hasSubC pat.toList s.toList

/-- Code-point lexicographic order on character lists. -/
def charLe : List Char → List Char → Bool
  | [], _ => true
  | _ :: _, [] => false
  | a :: as, b :: bs => if a = b then charLe as bs else decide (a < b)

/-- Model of `a.localeCompare(b) <= 0` (see the header comment). -/
def strLe (a b : String) : Bool := charLe a.toList b.toList

/-- The project-header test used (on trimmed text) at `extension.ts` lines
76, 155, 288 and 365: `text.endsWith(':') && text.length > 1`. -/
def isProjectHeader (line : String) : Bool :=
  jsEndsWith (jsTrim line) ":" && (jsTrim line).length > 1

/-- A line is blank when its trimmed text is empty. -/
def isBlank (line : String) : Bool := jsTrim line == ""

/-! ## The context regex `/^(.+?)\s+-\s/`

`extension.ts` extracts the context of an item line as the first capture
group of `/^(.+?)\s+-\s/` (lines 126, 272).  The lazy group matches the
shortest non-empty prefix that is followed by one-or-more whitespace, a
hyphen and a whitespace character. -/

/-- Does `\s+-\s` match at the head of `cs`?  Since `-` is not whitespace,
backtracking of the greedy `\s+` forces it to consume the maximal
whitespace run. -/
def sepAt (cs : List Char) : Bool :=
  let ws := cs.takeWhile isWsC
  match ws, cs.drop ws.length with
  | _ :: _, '-' :: d :: _ => isWsC d
  | _, _ => false

/-- Scan for the shortest non-empty prefix (accumulated in `acc`) followed
by a `\s+-\s` separator. -/
def ctxScan (acc : List Char) : List Char → Option String
  | [] => none
  | c :: cs => if sepAt (c :: cs) then some (String.mk acc) else ctxScan (acc ++ [c]) cs

/-- Capture group 1 of `line.match(/^(.+?)\s+-\s/)`, when the regex matches. -/
def extractContext (line : String) : Option String :=
  match line.toList with
  | [] => none
  | c :: cs => ctxScan [c] cs

/-- The sort key used by `sortByContextCommand`: the extracted context, or
`''` when the regex does not match. -/
def sortKey (line : String) : String := (extractContext line).getD ""

/-! ## Context color assignment (`getContextDecorationType`, lines 37-52)

`contextColorMap` is a JS `Map` (insertion-ordered); it is modelled as an
association list in insertion order.  `decorationTypes` is populated in
lockstep with `contextColorMap` and adds no further logic, so the model
keeps only the color map. -/

/-- One call of `getContextDecorationType`: look the context up; if absent,
assign index `map.size % CONTEXT_COLORS.length` and insert.  Returns the
updated map and the color index used for this context. -/
def colorFor (m : List (String × Nat)) (c : String) : List (String × Nat) × Nat :=
  match m.find? (fun p => p.1 == c) with
  | some p => (m, p.2)
  | none => (m ++ [(c, m.length % CONTEXT_COLORS.length)], m.length % CONTEXT_COLORS.length)

/-- Process a sequence of context requests starting from map `m`. -/
def runColors (m : List (String × Nat)) : List String → List (String × Nat)
  | [] => m
  | c :: cs => runColors (colorFor m c).1 cs

/-! ## Mark done (`markDoneCommand`, lines 224-260)

The command performs two `editBuilder` edits computed against the original
document: it deletes line `i` including its line break (when `i` is the
last line there is no break, so an empty last line remains), and inserts
the line's text at a position expressed in original coordinates.  VS Code
clamps an out-of-range insertion position to the end of the document. -/

/-- Apply, at original line coordinates, the deletion of line `i` (including
its line break) together with the insertion of line text `t` at the start
of line `k` (`k < lines.length`): each original index `j` contributes the
inserted line when `j = k`, nothing when `j = i` is deleted (or an empty
line when `j = i` is the break-less last line), and itself otherwise. -/
def spliceDI (lines : List String) (i k : Nat) (t : String) : List String :=
  (List.range lines.length).flatMap (fun j =>
    (if j = k then [t] else []) ++
    (if j = i then (if j + 1 = lines.length then [""] else []) else [lines.getD j ""]))

/-- Insertion at the clamped end-of-document position: the inserted text is
appended to the final line. -/
def appendToLastLine (ls : List String) (t : String) : List String :=
  ls.dropLast ++ [ls.getLast?.getD "" ++ t]

/-- `markDoneCommand` on document `lines`, target line `i`
(`editor.selection.active.line`, so `i < lines.length`).

* Guard (line 235): no-op when the raw line text trims to empty or ends
  with `':'`.
* `text.match(/^Done:$/m)` is `lines.any (· == "Done:")`.
* `text.indexOf('Done:')` locates the first line containing `"Done:"` as a
  substring; the insertion goes at the start of the following line
  (clamped to the document end when that line does not exist).
* With no `Done:` line, `'\n\nDone:\n' + lineText + '\n'` is inserted at
  the end of the document. -/
def markDone (lines : List String) (i : Nat) : List String :=
  let lineText := lines.getD i ""
  if jsTrim lineText == "" || jsEndsWith lineText ":" then lines
  else
    let removed := if i + 1 < lines.length then lines.eraseIdx i else lines.set i ""
    if lines.any (fun l => l == "Done:") then
      let dl := lines.findIdx (fun l => containsSub l "Done:")
      if dl + 1 < lines.length then spliceDI lines i (dl + 1) lineText
      else appendToLastLine removed lineText ++ [""]
    else removed ++ ["", "Done:", lineText, ""]

/-! ## Sort by context (`sortByContextCommand`, lines 265-342) -/

/-- The `Project` record of `sortByContextCommand` (the `trailingEmpty`
counter is parser state only and is dropped when a project is pushed). -/
structure Project where
  header : String
  items : List String
deriving DecidableEq, Repr

/-- The parsing loop of `sortByContextCommand` (lines 284-309): headers open
a new project; lines before the first header are skipped; blank lines are
counted and flushed as `''` items before the next non-blank line; trailing
blank lines are dropped. `cur` is `(header, items, trailingEmpty)`. -/
def parseLoop : List String → List Project → Option (String × List String × Nat) → List Project
  | [], ps, none => ps
  | [], ps, some (h, its, _) => ps ++ [⟨h, its⟩]
  | l :: rest, ps, cur =>
    if isProjectHeader l then
      match cur with
      | none => parseLoop rest ps (some (l, [], 0))
      | some (h, its, _) => parseLoop rest (ps ++ [⟨h, its⟩]) (some (l, [], 0))
    else
      match cur with
      | none => parseLoop rest ps none
      | some (h, its, te) =>
        if jsTrim l == "" then parseLoop rest ps (some (h, its, te + 1))
        else parseLoop rest ps (some (h, its ++ List.replicate te "" ++ [l], 0))

/-- Parse a document into its projects. -/
def parseProjects (lines : List String) : List Project := parseLoop lines [] none

/-- The sort comparator (lines 313-319): compare extracted contexts,
missing contexts compare as `''`. -/
def itemLe (a b : String) : Bool := strLe (sortKey a) (sortKey b)

/-- `project.items.sort(...)`: stable sort by context. -/
def sortProject (p : Project) : Project := ⟨p.header, p.items.mergeSort itemLe⟩

/-- Rebuild (lines 322-332): each project is its header followed by its
items, with one blank line between consecutive projects. -/
def rebuild : List Project → List String
  | [] => []
  | [p] => p.header :: p.items
  | p :: q :: rest => (p.header :: p.items) ++ [""] ++ rebuild (q :: rest)

/-- `sortByContextCommand` as a document transform.  (The command replaces
the full document range by the rebuilt text, so the output lines are
exactly these.) -/
def sortByContext (lines : List String) : List String :=
  rebuild ((parseProjects lines).map sortProject)

/-! ## Folding ranges (`TixFoldingRangeProvider.provideFoldingRanges`,
lines 145-184) -/

/-- The backwards scan `while (endLine > projectStart && blank) endLine--`
(the loop stops at `endLine = projectStart`, so recursion on the counter
is structural). -/
def scanBack (lines : List String) (s : Nat) : Nat → Nat
  | 0 => 0
  | e + 1 =>
    if s < e + 1 && isBlank (lines.getD (e + 1) "") then scanBack lines s e else e + 1

/-- The folding loop: `all` is the whole document, the remaining lines are
walked with their index `i`, `ps` is the open project's header index. -/
def foldLoop (all : List String) : List String → Nat → Option Nat → List (Nat × Nat) → List (Nat × Nat)
  | [], _, ps, acc =>
    (match ps with
     | none => acc
     | some s =>
       let e := scanBack all s (all.length - 1)
       if s < e then acc ++ [(s, e)] else acc)
  | l :: rest, i, ps, acc =>
    if isProjectHeader l then
      match ps with
      | none => foldLoop all rest (i + 1) (some i) acc
      | some s =>
        let e := scanBack all s (i - 1)
        foldLoop all rest (i + 1) (some i) (if s < e then acc ++ [(s, e)] else acc)
    else foldLoop all rest (i + 1) ps acc

/-- `provideFoldingRanges` on a document. -/
def provideFoldingRanges (lines : List String) : List (Nat × Nat) :=
  foldLoop lines lines 0 none []

/-! ## Archive (`archiveCommand`, lines 347-413) -/

/-- The two informational signals of the archive command
(`'No Done section found'` / `'No items to archive'`). -/
inductive ArchiveSignal where
  | noDoneSection
  | nothingToArchive
deriving DecidableEq, Repr

/-- The search loop (lines 361-370): a line trimming to `Done:` records a
new section start; once one is recorded, the next project header ends the
section at the preceding line. Returns `(doneStartLine?, doneEndLine?)`. -/
def findDoneLoop : List String → Nat → Option Nat → Option Nat × Option Nat
  | [], _, ds => (ds, none)
  | l :: rest, i, ds =>
    if jsTrim l == "Done:" then findDoneLoop rest (i + 1) (some i)
    else if ds.isSome && isProjectHeader l then (ds, some (i - 1))
    else findDoneLoop rest (i + 1) ds

/-- The non-blank lines of the section body (lines `ds+1 .. de`). -/
def doneItems (lines : List String) (ds de : Nat) : List String :=
  ((lines.drop (ds + 1)).take (de - ds)).filter (fun l => !isBlank l)

/-- `archiveCommand` on document `lines` with current UTC date `date`.
Returns the archive block and the remaining document, or a signal.  The
deletion range `(ds+1, 0)-(de+1, 0)` clamps to the document end when the
section runs to the last line, leaving an empty final line. -/
def archiveCommand (lines : List String) (date : String) :
    Except ArchiveSignal (String × List String) :=
  match findDoneLoop lines 0 none with
  | (none, _) => .error .noDoneSection
  | (some ds, deOpt) =>
    let de := deOpt.getD (lines.length - 1)
    let items := doneItems lines ds de
    if items.isEmpty then .error .nothingToArchive
    else
      .ok ("\nArchived " ++ date ++ ":\n" ++ String.intercalate "\n" items ++ "\n",
           if de + 1 < lines.length then lines.take (ds + 1) ++ lines.drop (de + 1)
           else lines.take (ds + 1) ++ [""])


/-! ## Specification-side definitions

The definitions below are written from the specification's (or an amended
claim's) wording, to be compared with the source-embedded functions
above. -/

/-- Amended Mark-Done behaviour, written from the amended claim's words:
remove the target line (when it is the last line, removing its text leaves
an empty last line), then re-insert its text as a new line immediately
after the first line containing `Done:` as a substring — one position
lower when the removed line was at or above it, appended to that line when
it is the final line — or, with no exact `Done:` line present, append a
blank separator line, a `Done:` header and the item at the document
end. -/
def markDoneSpec (lines : List String) (i : Nat) : List String :=
  let t := lines.getD i ""
  if jsTrim t == "" || jsEndsWith t ":" then lines
  else
    let removed := if i + 1 < lines.length then lines.eraseIdx i else lines.set i ""
    if lines.any (fun l => l == "Done:") then
      let dl := lines.findIdx (fun l => containsSub l "Done:")
      if dl + 1 < lines.length then removed.insertIdx (if i ≤ dl then dl else dl + 1) t
      else appendToLastLine removed t ++ [""]
    else removed ++ ["", "Done:", t, ""]

/-- The indices of the document's project-header lines, in order. -/
def headerIdxs (lines : List String) : List Nat :=
  (List.range lines.length).filter (fun j => isProjectHeader (lines.getD j ""))

/-- The first project-header index after `s`, if any. -/
def nextHeaderAfter (lines : List String) (s : Nat) : Option Nat :=
  (headerIdxs lines).find? (fun k => decide (s < k))

/-- The last line index of the section headed at `s`: the line before the
next project header, or the last line of the document. -/
def sectionEndIdx (lines : List String) (s : Nat) : Nat :=
  match nextHeaderAfter lines s with
  | some k => k - 1
  | none => lines.length - 1

/-- The index of the last non-blank line in `(s, e]`, if any. -/
def lastNonBlankIn (lines : List String) (s e : Nat) : Option Nat :=
  ((List.range (e + 1)).filter (fun j => decide (s < j) && !isBlank (lines.getD j ""))).getLast?

/-- Folding ranges as the specification words them: one `(s, e)` pair for
each project-header line `s` whose section contains a non-blank body line,
with `e` the last such line's index. -/
def specFoldingRanges (lines : List String) : List (Nat × Nat) :=
  (headerIdxs lines).filterMap (fun s =>
    (lastNonBlankIn lines s (sectionEndIdx lines s)).map (fun e => (s, e)))

/-- The index of the first line whose trimmed text is `Done:`, if any. -/
def firstDoneIdx (lines : List String) : Option Nat :=
  (List.range lines.length).find? (fun j => jsTrim (lines.getD j "") == "Done:")

/-- The Done section located by `archiveCommand`'s search: its
`(doneStartLine, doneEndLine)` pair, with the end-of-file default
applied. -/
def doneRange (lines : List String) : Option (Nat × Nat) :=
  match findDoneLoop lines 0 none with
  | (none, _) => none
  | (some ds, deOpt) => some (ds, deOpt.getD (lines.length - 1))

/-- A project record as produced by `parseLoop`: the header line classifies
as a header, no item line does, blank item lines are exactly `''` (the
parser replaces them), and the item list never ends with a blank line
(trailing blanks are dropped). -/
def GoodProject (p : Project) : Prop :=
  isProjectHeader p.header = true ∧
  (∀ l ∈ p.items, isProjectHeader l = false) ∧
  (∀ l ∈ p.items, isBlank l = true → l = "") ∧
  (∀ l, p.items.getLast? = some l → isBlank l = false)

/-! ## Helper lemmas -/

theorem parseLoop_skip (pre rest : List String) (ps : List Project)
    (h : ∀ l ∈ pre, isProjectHeader l = false) :
    parseLoop (pre ++ rest) ps none = parseLoop rest ps none := by
  induction pre with
  | nil => rfl
  | cons l pre ih =>
    have hl := h l (List.mem_cons_self l pre)
    simp only [List.cons_append, parseLoop, hl]
    exact ih (fun x hx => h x (List.mem_cons_of_mem l hx))

theorem runColors_fresh (cs : List String) : ∀ (m : List (String × Nat)),
    cs.Nodup → (∀ c ∈ cs, ∀ q ∈ m, q.1 ≠ c) →
    (runColors m cs).length = m.length + cs.length ∧
    ∀ q ∈ runColors m cs, q.1 ∈ cs ∨ q ∈ m := by
  induction cs with
  | nil => exact fun m _ _ => ⟨rfl, fun q hq => Or.inr hq⟩
  | cons c cs ih =>
    intro m hnd hfresh
    have hfind : m.find? (fun p => p.1 == c) = none := by
      rw [List.find?_eq_none]
      intro q hq
      simpa using hfresh c (List.mem_cons_self c cs) q hq
    have hstep : runColors m (c :: cs) =
        runColors (m ++ [(c, m.length % CONTEXT_COLORS.length)]) cs := by
      simp [runColors, colorFor, hfind]
    have hnd' : cs.Nodup := hnd.of_cons
    have hfresh' : ∀ d ∈ cs, ∀ q ∈ m ++ [(c, m.length % CONTEXT_COLORS.length)], q.1 ≠ d := by
      intro d hd q hq
      rcases List.mem_append.mp hq with hq | hq
      · exact hfresh d (List.mem_cons_of_mem c hd) q hq
      · have hq' : q = (c, m.length % CONTEXT_COLORS.length) := by simpa using hq
        subst hq'
        have hcnotin : c ∉ cs := (List.nodup_cons.mp hnd).1
        intro he
        apply hcnotin
        have hcd : c = d := he
        rw [hcd]; exact hd
    obtain ⟨hlen, hmem⟩ := ih _ hnd' hfresh'
    refine ⟨by rw [hstep, hlen]; simp; omega, ?_⟩
    intro q hq
    rw [hstep] at hq
    rcases hmem q hq with h1 | h1
    · exact Or.inl (List.mem_cons_of_mem c h1)
    · rcases List.mem_append.mp h1 with h2 | h2
      · exact Or.inr h2
      · have : q = (c, m.length % CONTEXT_COLORS.length) := by simpa using h2
        exact Or.inl (by rw [this]; exact List.mem_cons_self c cs)

/-! ## C8: project-header classification -/

/-- C8: a line is classified as a ProjectHeader iff its trimmed text has
length greater than 1 and ends with `:`; equivalently, iff the trimmed
text is a non-empty character sequence followed by `:`.  In particular
`"x:"` is a ProjectHeader and `":"` alone is not. -/
theorem isProjectHeader_characterization :
    (∀ line : String, isProjectHeader line = true ↔
      ((jsTrim line).length > 1 ∧ jsEndsWith (jsTrim line) ":" = true)) ∧
    (∀ line : String, isProjectHeader line = true ↔
      ∃ cs, cs ≠ [] ∧ (jsTrim line).toList = cs ++ [':']) ∧
    isProjectHeader "x:" = true ∧ isProjectHeader ":" = false := by
  refine ⟨fun line => ?_, fun line => ?_, by decide, by decide⟩
  · simp [isProjectHeader, and_comm]
  · have htl : (":" : String).toList = [':'] := rfl
    constructor
    · intro h
      have h1 : jsEndsWith (jsTrim line) ":" = true ∧ (jsTrim line).length > 1 := by
        simpa [isProjectHeader] using h
      have h2 : [':'] <:+ (jsTrim line).toList := by
        have h3 := h1.1
        unfold jsEndsWith at h3
        rw [htl, List.isSuffixOf_iff_suffix] at h3
        exact h3
      obtain ⟨cs, hcs⟩ := h2
      refine ⟨cs, ?_, hcs.symm⟩
      intro hnil
      subst hnil
      have hlen : (jsTrim line).length = (jsTrim line).toList.length := rfl
      have h4 := h1.2
      rw [hlen, ← hcs] at h4
      simp at h4
    · rintro ⟨cs, hne, hcs⟩
      have h2 : jsEndsWith (jsTrim line) ":" = true := by
        unfold jsEndsWith
        rw [htl, List.isSuffixOf_iff_suffix, hcs]
        exact List.suffix_append cs [':']
      have h3 : (jsTrim line).length > 1 := by
        have hlen : (jsTrim line).length = (jsTrim line).toList.length := rfl
        rw [hlen, hcs]
        cases cs with
        | nil => exact absurd rfl hne
        | cons a cs => simp
      simp [isProjectHeader, h2, h3]

/-! ## C2: Mark-Done no-op guard -/

/-- C2 counterexample: `"Work: "` (trailing space) is a ProjectHeader —
its trimmed text `"Work:"` ends with `:` and has length 5 — yet Mark-Done
on it changes the document text, because the guard tests the raw line,
which ends with a space, not `:`. -/
theorem markDone_on_header_changes_text :
    isProjectHeader "Work: " = true ∧
    markDone ["Work: ", "a - x"] 0 = ["a - x", "", "Done:", "Work: ", ""] ∧
    markDone ["Work: ", "a - x"] 0 ≠ ["Work: ", "a - x"] := by decide

/-- C2 (amended): Mark-Done leaves the document unchanged when the target
line is blank or its raw (untrimmed) text ends with `:` — which covers
every blank line and every ProjectHeader whose raw text has no trailing
whitespace. -/
theorem markDone_noop (lines : List String) (i : Nat)
    (h : isBlank (lines.getD i "") = true ∨ jsEndsWith (lines.getD i "") ":" = true) :
    markDone lines i = lines := by
  have hc : (jsTrim (lines.getD i "") == "" || jsEndsWith (lines.getD i "") ":") = true := by
    unfold isBlank at h
    simpa using h
  simp only [markDone]
  rw [if_pos hc]

theorem markDone_noop_witness : markDone ["x:", "a - b"] 0 = ["x:", "a - b"] :=
  markDone_noop ["x:", "a - b"] 0 (Or.inr (by decide))

/-! ## C3: the preamble under Sort-By-Context -/

/-- C3 counterexample: the document `["pre", "P:", "b - y"]` has the
preamble line `"pre"`; sorting removes it from the text instead of
leaving it in place before the sections. -/
theorem sortByContext_drops_preamble :
    isProjectHeader "pre" = false ∧
    sortByContext ["pre", "P:", "b - y"] = ["P:", "b - y"] ∧
    "pre" ∉ sortByContext ["pre", "P:", "b - y"] := by
  have h : sortByContext ["pre", "P:", "b - y"] = ["P:", "b - y"] := by
    simp +decide [sortByContext, parseProjects, parseLoop, sortProject, rebuild]
  exact ⟨by decide, h, by rw [h]; decide⟩

/-- C3 (amended): Sort-By-Context deletes the preamble: lines before the
first ProjectHeader are skipped by its parse, so the output is the same as
for the document with the preamble absent (and thus starts at the first
header). -/
theorem sortByContext_ignores_preamble (pre rest : List String)
    (h : ∀ l ∈ pre, isProjectHeader l = false) :
    sortByContext (pre ++ rest) = sortByContext rest := by
  unfold sortByContext parseProjects
  rw [parseLoop_skip pre rest [] h]

theorem sortByContext_ignores_preamble_witness :
    sortByContext (["x"] ++ ["P:"]) = sortByContext ["P:"] :=
  sortByContext_ignores_preamble ["x"] ["P:"] (by decide)

/-! ## C9: context color assignment -/

/-- C9: processing distinct context names from an empty map, the i-th
first-seen context receives palette index `i % CONTEXT_COLORS.length`
(0-based, i.e. the (i+1)-st context gets index `i mod 16`), and a repeated
call with the same context on the same map returns the same index. -/
theorem colorFor_assignment (cs : List String) (h : cs.Nodup) (i : Nat)
    (hi : i < cs.length) :
    (colorFor (runColors [] (cs.take i)) (cs.getD i "")).2 = i % CONTEXT_COLORS.length ∧
    ∀ (m : List (String × Nat)) (c : String),
      (colorFor (colorFor m c).1 c).2 = (colorFor m c).2 := by
  constructor
  · have htake : (cs.take i).Nodup := h.sublist (List.take_sublist i cs)
    have hfresh : ∀ c ∈ cs.take i, ∀ q ∈ ([] : List (String × Nat)), q.1 ≠ c := by
      intro _ _ q hq; cases hq
    obtain ⟨hlen, hmem⟩ := runColors_fresh (cs.take i) [] htake hfresh
    have hnotin : cs.getD i "" ∉ cs.take i := by
      have hsplit : cs.take i ++ cs.drop i = cs := List.take_append_drop i cs
      have hnd : (cs.take i ++ cs.drop i).Nodup := by rw [hsplit]; exact h
      have hdisj := (List.nodup_append.mp hnd).2.2
      have hmemdrop : cs.getD i "" ∈ cs.drop i := by
        rw [List.getD_eq_getElem cs "" hi]
        rw [List.drop_eq_getElem_cons hi]
        exact List.mem_cons_self _ _
      exact fun hmem' => hdisj hmem' hmemdrop
    have hfind : (runColors [] (cs.take i)).find? (fun p => p.1 == cs.getD i "") = none := by
      rw [List.find?_eq_none]
      intro q hq
      rcases hmem q hq with h1 | h1
      · simp only [beq_iff_eq]
        intro he; exact hnotin (he ▸ h1)
      · cases h1
    have hlen' : (runColors [] (cs.take i)).length = i := by
      rw [hlen]
      simp [List.length_take]
      omega
    unfold colorFor
    rw [hfind]
    show (runColors [] (cs.take i)).length % CONTEXT_COLORS.length = i % CONTEXT_COLORS.length
    rw [hlen']
  · intro m c
    cases hfind : m.find? (fun p => p.1 == c) with
    | some p =>
      have h1 : colorFor m c = (m, p.2) := by unfold colorFor; rw [hfind]
      rw [h1]
      show (colorFor m c).2 = p.2
      rw [h1]
    | none =>
      have h1 : colorFor m c = (m ++ [(c, m.length % CONTEXT_COLORS.length)],
          m.length % CONTEXT_COLORS.length) := by unfold colorFor; rw [hfind]
      have h2 : (m ++ [(c, m.length % CONTEXT_COLORS.length)]).find?
          (fun p => p.1 == c) = some (c, m.length % CONTEXT_COLORS.length) := by
        rw [List.find?_append, hfind]
        simp
      rw [h1]
      show (colorFor (m ++ [(c, m.length % CONTEXT_COLORS.length)]) c).2
          = m.length % CONTEXT_COLORS.length
      unfold colorFor
      rw [h2]

/-! ## Order properties of the sort comparator -/

theorem charLe_total : ∀ as bs : List Char, charLe as bs = true ∨ charLe bs as = true := by
  intro as
  induction as with
  | nil => intro bs; exact Or.inl rfl
  | cons a as ih =>
    intro bs
    cases bs with
    | nil => exact Or.inr rfl
    | cons b bs =>
      by_cases hab : a = b
      · subst hab
        rcases ih bs with h | h
        · exact Or.inl (by simp [charLe, h])
        · exact Or.inr (by simp [charLe, h])
      · rcases lt_or_gt_of_ne hab with h | h
        · exact Or.inl (by simp [charLe, hab, h])
        · exact Or.inr (by simp [charLe, Ne.symm hab, h])

theorem charLe_trans : ∀ as bs cs : List Char,
    charLe as bs = true → charLe bs cs = true → charLe as cs = true := by
  intro as
  induction as with
  | nil => intro bs cs _ _; rfl
  | cons a as ih =>
    intro bs cs hab hbc
    cases bs with
    | nil => simp [charLe] at hab
    | cons b bs =>
      cases cs with
      | nil => simp [charLe] at hbc
      | cons c cs =>
        by_cases h1 : a = b <;> by_cases h2 : b = c
        · subst h1; subst h2
          simp only [charLe, if_pos rfl] at hab hbc ⊢
          exact ih bs cs hab hbc
        · subst h1
          simp only [charLe, if_pos rfl, if_neg h2] at hbc ⊢
          exact hbc
        · subst h2
          simp only [charLe, if_neg h1] at hab ⊢
          exact hab
        · simp only [charLe, if_neg h1, if_neg h2, decide_eq_true_eq] at hab hbc
          have h3 : a < c := lt_trans hab hbc
          have h4 : a ≠ c := ne_of_lt h3
          simp [charLe, if_neg h4, h3]

theorem itemLe_total : ∀ a b : String, itemLe a b = true ∨ itemLe b a = true := by
  intro a b
  exact charLe_total (sortKey a).toList (sortKey b).toList

theorem itemLe_trans : ∀ a b c : String,
    itemLe a b = true → itemLe b c = true → itemLe a c = true := by
  intro a b c hab hbc
  exact charLe_trans _ _ _ hab hbc

theorem strLe_nil_right : ∀ s : String, strLe s "" = true → s = "" := by
  intro s h
  cases s with
  | mk data =>
    cases data with
    | nil => rfl
    | cons c cs => simp [strLe, String.toList, charLe] at h

/-! ## C4: items are ordered by context within each section -/

/-- C4: every project in Sort-By-Context's output has its item lines in
ascending `itemLe` order (ascending extracted-context order under the
modelled locale comparison); a line with no extractable context has sort
key `''`, and `''` is minimal, so such lines sort first.  The spec's
concrete example sorts `alice - x` before `bob - y`. -/
theorem sortByContext_orders_items :
    (∀ (lines : List String) (p : Project),
        p ∈ (parseProjects lines).map sortProject →
        p.items.Pairwise (fun a b => itemLe a b = true)) ∧
    (∀ l : String, extractContext l = none → sortKey l = "") ∧
    (∀ s : String, strLe "" s = true) ∧
    sortByContext ["P:", "bob - y", "alice - x", ""] = ["P:", "alice - x", "bob - y"] := by
  refine ⟨?_, ?_, ?_, ?_⟩
  · rintro lines p hp
    rw [List.mem_map] at hp
    obtain ⟨q, hq, rfl⟩ := hp
    exact List.sorted_mergeSort (fun a b c => itemLe_trans a b c)
      (fun a b => by rcases itemLe_total a b with h | h <;> simp [h]) q.items
  · intro l h; simp [sortKey, h]
  · intro s; rfl
  · simp +decide [sortByContext, parseProjects, parseLoop, sortProject, rebuild,
      List.mergeSort, List.merge]

/-! ## C5: the archive block and remaining text -/

theorem archiveCommand_some (lines : List String) (date : String) (ds : Nat)
    (deo : Option Nat) (hfd : findDoneLoop lines 0 none = (some ds, deo)) :
    archiveCommand lines date =
      if (doneItems lines ds (deo.getD (lines.length - 1))).isEmpty then
        .error .nothingToArchive
      else
        .ok ("\nArchived " ++ date ++ ":\n" ++
               String.intercalate "\n" (doneItems lines ds (deo.getD (lines.length - 1))) ++ "\n",
             if deo.getD (lines.length - 1) + 1 < lines.length then
               lines.take (ds + 1) ++ lines.drop (deo.getD (lines.length - 1) + 1)
             else lines.take (ds + 1) ++ [""]) := by
  unfold archiveCommand
  rw [hfd]

/-- C5 counterexample: the claim quantifies over every document containing
a `Done:` section with at least one non-blank body line, but on
`["Done:", "a", "Done:"]` — where line 0 trims to `Done:` and its body
(line 1, the section's full extent up to the next header) holds the
non-blank item `a` — no archive block is produced at all: the search
restarts at the second `Done:` and the command signals
NothingToArchive. -/
theorem archiveCommand_block_counterexample :
    jsTrim ((["Done:", "a", "Done:"] : List String).getD 0 "") = "Done:" ∧
    sectionEndIdx ["Done:", "a", "Done:"] 0 = 1 ∧
    isBlank ((["Done:", "a", "Done:"] : List String).getD 1 "") = false ∧
    archiveCommand ["Done:", "a", "Done:"] "2024-01-15" =
      .error .nothingToArchive :=
  ⟨by decide, by decide, by decide, rfl⟩

/-- C5 (amended): when the located Done section has at least one non-blank body
line, the archive block is exactly `"\nArchived {date}:\n"` (with `date`
the UTC date string parameter) followed by the section's non-blank body
lines in original order joined by newlines and a trailing newline; the
remaining document keeps everything up to and including the `Done:`
header, with the section's body lines deleted (an empty final line
remains when the section ran to the end of the document).  The spec's
concrete example is included. -/
theorem archiveCommand_block_format (lines : List String) (date : String)
    (ds de : Nat) (hr : doneRange lines = some (ds, de))
    (hne : doneItems lines ds de ≠ []) :
    archiveCommand lines date =
      .ok ("\nArchived " ++ date ++ ":\n" ++
             String.intercalate "\n" (doneItems lines ds de) ++ "\n",
           lines.take (ds + 1) ++
             (if de + 1 < lines.length then lines.drop (de + 1) else [""])) ∧
    archiveCommand ["Done:", "item1", "item2"] "2024-01-15" =
      .ok ("\nArchived 2024-01-15:\nitem1\nitem2\n", ["Done:", ""]) := by
  refine ⟨?_, rfl⟩
  unfold doneRange at hr
  cases hfd : findDoneLoop lines 0 none with
  | mk dso deo =>
    rw [hfd] at hr
    cases dso with
    | none => simp at hr
    | some ds0 =>
      simp only [Option.some.injEq, Prod.mk.injEq] at hr
      obtain ⟨hds, hde⟩ := hr
      subst hds
      rw [← hde] at hne ⊢
      have hempty : (doneItems lines ds0 (deo.getD (lines.length - 1))).isEmpty = false := by
        rw [List.isEmpty_eq_false_iff_exists_mem]
        cases hitems : doneItems lines ds0 (deo.getD (lines.length - 1)) with
        | nil => exact absurd hitems hne
        | cons x xs => exact ⟨x, by simp⟩
      rw [archiveCommand_some lines date ds0 deo hfd]
      rw [if_neg (by rw [hempty]; simp)]
      split <;> simp

theorem archiveCommand_block_format_witness :
    (archiveCommand ["Done:", "a - x"] "d" =
      .ok ("\nArchived " ++ "d" ++ ":\n" ++
             String.intercalate "\n" (doneItems ["Done:", "a - x"] 0 1) ++ "\n",
           (["Done:", "a - x"] : List String).take (0 + 1) ++
             (if 1 + 1 < (["Done:", "a - x"] : List String).length then
               (["Done:", "a - x"] : List String).drop (1 + 1)
             else [""]))) ∧
    archiveCommand ["Done:", "item1", "item2"] "2024-01-15" =
      .ok ("\nArchived 2024-01-15:\nitem1\nitem2\n", ["Done:", ""]) :=
  archiveCommand_block_format ["Done:", "a - x"] "d" 0 1 (by decide) (by decide)

theorem colorFor_assignment_witness :
    (colorFor (runColors [] ((["a", "b"] : List String).take 1))
        ((["a", "b"] : List String).getD 1 "")).2 = 1 % CONTEXT_COLORS.length ∧
    ∀ (m : List (String × Nat)) (c : String),
      (colorFor (colorFor m c).1 c).2 = (colorFor m c).2 :=
  colorFor_assignment ["a", "b"] (by decide) 1 (by decide)

/-! ## C6: the archive signals -/

theorem findDoneLoop_fst_none : ∀ (l : List String) (i : Nat) (ds : Option Nat),
    (findDoneLoop l i ds).1 = none ↔ (ds = none ∧ ∀ x ∈ l, jsTrim x ≠ "Done:") := by
  intro l
  induction l with
  | nil => intro i ds; simp [findDoneLoop]
  | cons x l ih =>
    intro i ds
    by_cases h1 : (jsTrim x == "Done:") = true
    · rw [show findDoneLoop (x :: l) i ds = findDoneLoop l (i + 1) (some i) by
        simp [findDoneLoop, h1]]
      rw [ih]
      have hx : jsTrim x = "Done:" := by simpa using h1
      constructor
      · rintro ⟨hc, _⟩; cases hc
      · rintro ⟨_, hall⟩
        exact absurd hx (hall x (List.mem_cons_self x l))
    · by_cases h2 : (ds.isSome && isProjectHeader x) = true
      · rw [show findDoneLoop (x :: l) i ds = (ds, some (i - 1)) by
          simp [findDoneLoop, h1, h2]]
        have hds : ds ≠ none := by
          intro hc
          subst hc
          simp at h2
        simp [hds]
      · rw [show findDoneLoop (x :: l) i ds = findDoneLoop l (i + 1) ds by
          simp [findDoneLoop, h1, h2]]
        rw [ih]
        have hx : jsTrim x ≠ "Done:" := by simpa using h1
        constructor
        · rintro ⟨hds, hall⟩
          refine ⟨hds, ?_⟩
          intro y hy
          rcases List.mem_cons.mp hy with rfl | hy
          · exact hx
          · exact hall y hy
        · rintro ⟨hds, hall⟩
          exact ⟨hds, fun y hy => hall y (List.mem_cons_of_mem x hy)⟩

theorem doneItems_eq_nil_iff (lines : List String) (ds de : Nat) :
    doneItems lines ds de = [] ↔
      ∀ j, ds < j → j ≤ de → isBlank (lines.getD j "") = true := by
  unfold doneItems
  rw [List.filter_eq_nil_iff]
  constructor
  · intro h j h1 h2
    by_cases hj : j < lines.length
    · have hk1 : j - (ds + 1) < de - ds := by omega
      have hk2 : j - (ds + 1) < (lines.drop (ds + 1)).length := by
        rw [List.length_drop]; omega
      have hmem : lines.getD j "" ∈ (lines.drop (ds + 1)).take (de - ds) := by
        rw [List.getD_eq_getElem lines "" hj]
        have hlt : j - (ds + 1) < ((lines.drop (ds + 1)).take (de - ds)).length := by
          rw [List.length_take]; omega
        have hget : ((lines.drop (ds + 1)).take (de - ds)).get ⟨j - (ds + 1), hlt⟩
            = lines[j] := by
          simp [List.getElem_take, List.getElem_drop]
          congr 1
          omega
        rw [← hget]
        exact List.get_mem _ _ hlt
      have := h _ hmem
      simpa using this
    · have hd : lines.getD j "" = "" := by
        rw [List.getD_eq_getElem?_getD, List.getElem?_eq_none (by omega)]
        rfl
      rw [hd]
      decide
  · intro h x hx
    obtain ⟨k, hk, hget⟩ := List.mem_iff_getElem.mp hx
    have hk1 : k < de - ds := by
      have := hk
      rw [List.length_take] at this
      omega
    have hk2 : k < (lines.drop (ds + 1)).length := by
      have := hk
      rw [List.length_take] at this
      omega
    have hk3 : ds + 1 + k < lines.length := by
      rw [List.length_drop] at hk2
      omega
    have hx2 : x = lines[ds + 1 + k] := by
      rw [← hget]
      simp [List.getElem_take, List.getElem_drop]
    have hb := h (ds + 1 + k) (by omega) (by omega)
    rw [List.getD_eq_getElem lines "" hk3] at hb
    rw [hx2]
    simp [hb]

/-- C6 counterexample: the claim's declarative reading of NothingToArchive
fails in both directions on documents with two `Done:` sections.  In
`["Done:", "a", "Done:"]` the (first) Done section's extent is line 1,
which is non-blank, yet the command signals NothingToArchive (the search
restarts at the second `Done:`).  In `["Done:", "x", "P:", "s", "Done:"]`
the final `Done:` section exists with an all-blank (empty) extent, yet the
command archives `x` instead of signalling. -/
theorem archiveCommand_signal_counterexample :
    (archiveCommand ["Done:", "a", "Done:"] "d" = .error .nothingToArchive ∧
     jsTrim ((["Done:", "a", "Done:"] : List String).getD 0 "") = "Done:" ∧
     sectionEndIdx ["Done:", "a", "Done:"] 0 = 1 ∧
     isBlank ((["Done:", "a", "Done:"] : List String).getD 1 "") = false) ∧
    (archiveCommand ["Done:", "x", "P:", "s", "Done:"] "d" =
       .ok ("\nArchived d:\nx\n", ["Done:", "P:", "s", "Done:"]) ∧
     jsTrim ((["Done:", "x", "P:", "s", "Done:"] : List String).getD 4 "") = "Done:" ∧
     sectionEndIdx ["Done:", "x", "P:", "s", "Done:"] 4 = 4 ∧
     doneItems ["Done:", "x", "P:", "s", "Done:"] 4 4 = []) :=
  ⟨⟨rfl, by decide, by decide, by decide⟩, ⟨rfl, by decide, by decide, by decide⟩⟩

/-- C6 (amended): the archiver signals NoDoneSection iff no line's trimmed
text is exactly `Done:`; it signals NothingToArchive iff the section its
search locates (`doneRange`: the last `Done:` line recorded before the
first subsequent non-`Done:` project header, with extent up to the line
before that header or to end-of-document) has an all-blank body.  In both
cases nothing is archived and no text change is produced (the result
carries no document). -/
theorem archiveCommand_signal_conditions (lines : List String) (date : String) :
    (archiveCommand lines date = .error .noDoneSection ↔
      ∀ l ∈ lines, jsTrim l ≠ "Done:") ∧
    (archiveCommand lines date = .error .nothingToArchive ↔
      ∃ ds de, doneRange lines = some (ds, de) ∧
        ∀ j, ds < j → j ≤ de → isBlank (lines.getD j "") = true) := by
  cases hfd : findDoneLoop lines 0 none with
  | mk dso deo =>
    cases dso with
    | none =>
      have hnone : ∀ l ∈ lines, jsTrim l ≠ "Done:" := by
        have := (findDoneLoop_fst_none lines 0 none).mp (by rw [hfd])
        exact this.2
      have hcmd : archiveCommand lines date = .error .noDoneSection := by
        unfold archiveCommand
        rw [hfd]
      have hdr : doneRange lines = none := by
        unfold doneRange
        rw [hfd]
      constructor
      · rw [hcmd]
        exact ⟨fun _ => hnone, fun _ => rfl⟩
      · rw [hcmd, hdr]
        simp
    | some ds0 =>
      have hsome : ¬(∀ l ∈ lines, jsTrim l ≠ "Done:") := by
        intro hall
        have := (findDoneLoop_fst_none lines 0 none).mpr ⟨rfl, hall⟩
        rw [hfd] at this
        cases this
      have hdr : doneRange lines = some (ds0, deo.getD (lines.length - 1)) := by
        unfold doneRange
        rw [hfd]
      rw [archiveCommand_some lines date ds0 deo hfd]
      constructor
      · constructor
        · intro hc
          split at hc <;> cases hc
        · intro hall
          exact absurd hall hsome
      · constructor
        · intro hc
          split at hc
          · refine ⟨ds0, deo.getD (lines.length - 1), hdr, ?_⟩
            rw [← doneItems_eq_nil_iff]
            rename_i hempty
            exact List.isEmpty_iff.mp hempty
          · cases hc
        · rintro ⟨ds, de, hds, hblank⟩
          rw [hdr] at hds
          simp only [Option.some.injEq, Prod.mk.injEq] at hds
          obtain ⟨h1, h2⟩ := hds
          subst h1
          have hnil : doneItems lines ds0 (deo.getD (lines.length - 1)) = [] := by
            rw [doneItems_eq_nil_iff]
            rw [h2]
            exact hblank
          rw [if_pos (by rw [hnil]; rfl)]

/-! ## C1: Mark-Done relocation -/

theorem flatMap_congr_mem (l : List Nat) (f g : Nat → List String)
    (h : ∀ j ∈ l, f j = g j) : l.flatMap f = l.flatMap g := by
  induction l with
  | nil => rfl
  | cons a l ih =>
    rw [List.flatMap_cons, List.flatMap_cons, h a (List.mem_cons_self a l),
      ih (fun j hj => h j (List.mem_cons_of_mem a hj))]

theorem flatMap_range_shift (n : Nat) (f : Nat → List String) :
    (List.range (n + 1)).flatMap f = f 0 ++ (List.range n).flatMap (fun j => f (j + 1)) := by
  rw [List.range_succ_eq_map, List.flatMap_cons, List.flatMap_map]

theorem idSplice (ls : List String) :
    (List.range ls.length).flatMap (fun j => [ls.getD j ""]) = ls := by
  induction ls with
  | nil => rfl
  | cons l ls ih =>
    rw [List.length_cons, flatMap_range_shift]
    have hcong := flatMap_congr_mem (List.range ls.length)
      (fun j => [(l :: ls).getD (j + 1) ""]) (fun j => [ls.getD j ""])
      (fun j hj => by simp)
    rw [hcong, ih]
    rfl

theorem insSplice (ls : List String) : ∀ (k : Nat) (t : String), k < ls.length →
    (List.range ls.length).flatMap
      (fun j => (if j = k then [t] else []) ++ [ls.getD j ""]) = ls.insertIdx k t := by
  induction ls with
  | nil => intro k t h; cases h
  | cons l ls ih =>
    intro k t hk
    rw [List.length_cons, flatMap_range_shift]
    by_cases hk0 : k = 0
    · subst hk0
      have hcong := flatMap_congr_mem (List.range ls.length)
        (fun j => (if j + 1 = 0 then [t] else []) ++ [(l :: ls).getD (j + 1) ""])
        (fun j => [ls.getD j ""])
        (fun j hj => by simp)
      rw [hcong, idSplice]
      simp
    · obtain ⟨k', rfl⟩ : ∃ k', k = k' + 1 := ⟨k - 1, by omega⟩
      have hcong := flatMap_congr_mem (List.range ls.length)
        (fun j => (if j + 1 = k' + 1 then [t] else []) ++ [(l :: ls).getD (j + 1) ""])
        (fun j => (if j = k' then [t] else []) ++ [ls.getD j ""])
        (fun j hj => by simp)
      rw [hcong, ih k' t (by simpa using hk)]
      simp [List.insertIdx_succ_cons]

theorem delSplice (ls : List String) : ∀ (i : Nat), i < ls.length →
    (List.range ls.length).flatMap
      (fun j => if j = i then (if j + 1 = ls.length then [""] else [])
                else [ls.getD j ""]) =
      if i + 1 < ls.length then ls.eraseIdx i else ls.set i "" := by
  induction ls with
  | nil => intro i h; cases h
  | cons l ls ih =>
    intro i hi
    rw [List.length_cons, flatMap_range_shift]
    by_cases hi0 : i = 0
    · subst hi0
      have hcong := flatMap_congr_mem (List.range ls.length)
        (fun j => if j + 1 = 0 then (if j + 1 + 1 = ls.length + 1 then [""] else [])
                  else [(l :: ls).getD (j + 1) ""])
        (fun j => [ls.getD j ""])
        (fun j hj => by simp)
      rw [hcong, idSplice]
      cases ls with
      | nil => simp
      | cons b bs => simp
    · obtain ⟨i', rfl⟩ : ∃ i', i = i' + 1 := ⟨i - 1, by omega⟩
      have hcong := flatMap_congr_mem (List.range ls.length)
        (fun j => if j + 1 = i' + 1 then (if j + 1 + 1 = ls.length + 1 then [""] else [])
                  else [(l :: ls).getD (j + 1) ""])
        (fun j => if j = i' then (if j + 1 = ls.length then [""] else [])
                  else [ls.getD j ""])
        (fun j hj => by simp)
      rw [hcong, ih i' (by simpa using hi)]
      by_cases hlt : i' + 1 < ls.length
      · simp [hlt, Nat.succ_lt_succ hlt]
      · simp [hlt]

theorem spliceDI_eq_insertIdx (ls : List String) : ∀ (i k : Nat) (t : String),
    i < ls.length → k < ls.length →
    spliceDI ls i k t =
      (if i + 1 < ls.length then ls.eraseIdx i else ls.set i "").insertIdx
        (if i < k then k - 1 else k) t := by
  induction ls with
  | nil => intro i k t hi _; cases hi
  | cons l ls ih =>
    intro i k t hi hk
    unfold spliceDI
    rw [List.length_cons, flatMap_range_shift]
    by_cases hi0 : i = 0
    · subst hi0
      by_cases hk0 : k = 0
      · subst hk0
        have hcong := flatMap_congr_mem (List.range ls.length)
          (fun j => (if j + 1 = 0 then [t] else []) ++
            (if j + 1 = 0 then (if j + 1 + 1 = ls.length + 1 then [""] else [])
             else [(l :: ls).getD (j + 1) ""]))
          (fun j => [ls.getD j ""]) (fun j hj => by simp)
        rw [hcong, idSplice]
        cases ls with
        | nil => simp
        | cons b bs => simp
      · obtain ⟨k', rfl⟩ : ∃ k', k = k' + 1 := ⟨k - 1, by omega⟩
        have hk' : k' < ls.length := by simpa using hk
        have hcong := flatMap_congr_mem (List.range ls.length)
          (fun j => (if j + 1 = k' + 1 then [t] else []) ++
            (if j + 1 = 0 then (if j + 1 + 1 = ls.length + 1 then [""] else [])
             else [(l :: ls).getD (j + 1) ""]))
          (fun j => (if j = k' then [t] else []) ++ [ls.getD j ""])
          (fun j hj => by simp)
        rw [hcong, insSplice ls k' t hk']
        have hlen : 0 < ls.length := by omega
        simp [Nat.succ_lt_succ hlen, show ls.length ≠ 0 by omega]
    · obtain ⟨i', rfl⟩ : ∃ i', i = i' + 1 := ⟨i - 1, by omega⟩
      have hi' : i' < ls.length := by simpa using hi
      by_cases hk0 : k = 0
      · subst hk0
        have hcong := flatMap_congr_mem (List.range ls.length)
          (fun j => (if j + 1 = 0 then [t] else []) ++
            (if j + 1 = i' + 1 then (if j + 1 + 1 = ls.length + 1 then [""] else [])
             else [(l :: ls).getD (j + 1) ""]))
          (fun j => if j = i' then (if j + 1 = ls.length then [""] else [])
                    else [ls.getD j ""])
          (fun j hj => by simp)
        rw [hcong, delSplice ls i' hi']
        by_cases hlt : i' + 1 < ls.length
        · simp [hlt, Nat.succ_lt_succ hlt]
        · simp [hlt]
      · obtain ⟨k'', rfl⟩ : ∃ k'', k = k'' + 1 := ⟨k - 1, by omega⟩
        have hk'' : k'' < ls.length := by simpa using hk
        have hcong := flatMap_congr_mem (List.range ls.length)
          (fun j => (if j + 1 = k'' + 1 then [t] else []) ++
            (if j + 1 = i' + 1 then (if j + 1 + 1 = ls.length + 1 then [""] else [])
             else [(l :: ls).getD (j + 1) ""]))
          (fun j => (if j = k'' then [t] else []) ++
            (if j = i' then (if j + 1 = ls.length then [""] else [])
             else [ls.getD j ""]))
          (fun j hj => by simp)
        rw [hcong]
        have hsp : (List.range ls.length).flatMap
            (fun j => (if j = k'' then [t] else []) ++
              (if j = i' then (if j + 1 = ls.length then [""] else [])
               else [ls.getD j ""])) = spliceDI ls i' k'' t := rfl
        rw [hsp, ih i' k'' t hi' hk'']
        by_cases hlt : i' + 1 < ls.length <;> by_cases hik : i' < k''
        · obtain ⟨m, rfl⟩ : ∃ m, k'' = m + 1 := ⟨k'' - 1, by omega⟩
          simp [hlt, Nat.succ_lt_succ hlt, hik, Nat.succ_lt_succ hik,
            List.insertIdx_succ_cons]
        · have hik2 : ¬(i' + 1 < k'' + 1) := by omega
          simp [hlt, Nat.succ_lt_succ hlt, hik, hik2, List.insertIdx_succ_cons]
        · obtain ⟨m, rfl⟩ : ∃ m, k'' = m + 1 := ⟨k'' - 1, by omega⟩
          have hlt2 : ¬(i' + 1 + 1 < ls.length + 1) := by omega
          simp [hlt, hlt2, hik, Nat.succ_lt_succ hik, List.insertIdx_succ_cons]
        · have hik2 : ¬(i' + 1 < k'' + 1) := by omega
          have hlt2 : ¬(i' + 1 + 1 < ls.length + 1) := by omega
          simp [hlt, hlt2, hik, hik2, List.insertIdx_succ_cons]

/-- C1 counterexample: the claim fails on two points.  A line whose
trimmed text is `":"` is non-blank and not a ProjectHeader, yet Mark-Done
leaves the document unchanged (the guard fires on the raw `endsWith ':'`).
And a section whose title trims to `Done:` but is not exactly `Done:`
(here `" Done:"`) is not used as the insertion target: a fresh `Done:`
section is appended instead. -/
theorem markDone_counterexample :
    (jsTrim ":" ≠ "" ∧ isProjectHeader ":" = false ∧
     markDone [":"] 0 = [":"]) ∧
    (jsTrim " Done:" = "Done:" ∧
     markDone ["P:", "a - x", " Done:"] 1 =
       ["P:", " Done:", "", "Done:", "a - x", ""]) := by decide

/-- C1 (amended): for a target line `i < lines.length`, Mark-Done behaves
as `markDoneSpec`: when the raw line is non-blank and does not end with
`:`, the line is removed (an empty final line remains when it was the
break-less last line) and its text is re-inserted immediately after the
first line containing `Done:` as a substring, provided some line is
exactly `Done:` (one position up when the removed line was at or above
the target; appended to that line when it is the final line); otherwise a
blank separator, a `Done:` header and the item are appended at the end. -/
theorem markDone_eq_markDoneSpec (lines : List String) (i : Nat)
    (hi : i < lines.length) :
    markDone lines i = markDoneSpec lines i := by
  simp only [markDone, markDoneSpec]
  by_cases hguard : (jsTrim (lines.getD i "") == "" || jsEndsWith (lines.getD i "") ":") = true
  · rw [if_pos hguard, if_pos hguard]
  · rw [if_neg hguard, if_neg hguard]
    by_cases hany : (lines.any fun l => l == "Done:") = true
    · rw [if_pos hany, if_pos hany]
      by_cases hdl : lines.findIdx (fun l => containsSub l "Done:") + 1 < lines.length
      · rw [if_pos hdl, if_pos hdl]
        rw [spliceDI_eq_insertIdx lines i
          (lines.findIdx (fun l => containsSub l "Done:") + 1) _ hi (by omega)]
        congr 1
        by_cases h : i < lines.findIdx (fun l => containsSub l "Done:") + 1
        · rw [if_pos h, if_pos (by omega : i ≤ lines.findIdx (fun l => containsSub l "Done:"))]
          omega
        · rw [if_neg h, if_neg (by omega : ¬i ≤ lines.findIdx (fun l => containsSub l "Done:"))]
      · rw [if_neg hdl, if_neg hdl]
    · rw [if_neg hany, if_neg hany]

theorem markDone_eq_markDoneSpec_witness :
    markDone ["Work:", "a - x", "Done:", "b - y", ""] 1 =
      markDoneSpec ["Work:", "a - x", "Done:", "b - y", ""] 1 :=
  markDone_eq_markDoneSpec ["Work:", "a - x", "Done:", "b - y", ""] 1 (by decide)

/-! ## C7: folding ranges -/

theorem mem_headerIdxs (lines : List String) (j : Nat) :
    j ∈ headerIdxs lines ↔ j < lines.length ∧ isProjectHeader (lines.getD j "") = true := by
  simp [headerIdxs, List.mem_filter, List.mem_range]

theorem headerIdxs_sorted (lines : List String) : (headerIdxs lines).Sorted (· < ·) :=
  (List.sorted_lt_range lines.length).filter _

theorem lastNonBlankIn_gt (lines : List String) (s e e' : Nat)
    (h : lastNonBlankIn lines s e = some e') : s < e' := by
  unfold lastNonBlankIn at h
  have hmem := List.mem_of_getLast?_eq_some h
  rw [List.mem_filter] at hmem
  have := hmem.2
  simp at this
  exact this.1

theorem scanBack_spec (lines : List String) (s : Nat) : ∀ (e : Nat), s ≤ e →
    scanBack lines s e = (lastNonBlankIn lines s e).getD s := by
  intro e
  induction e with
  | zero =>
    intro hs
    have hs0 : s = 0 := Nat.le_zero.mp hs
    subst hs0
    unfold scanBack lastNonBlankIn
    rw [List.filter_eq_nil_iff.mpr (by intro j hj; simp at hj ⊢; omega)]
    rfl
  | succ e ih =>
    intro hs
    unfold lastNonBlankIn
    rw [List.range_succ, List.filter_append, List.getLast?_append]
    by_cases h2p : isBlank (lines.getD (e + 1) "") = true
    · by_cases h1 : s < e + 1
      · have hfe : List.filter (fun j => decide (s < j) && !isBlank (lines.getD j "")) [e + 1]
            = [] := by
          simp only [List.filter_cons, List.filter_nil]
          rw [if_neg (by rw [h2p]; simp)]
        have hsc : scanBack lines s (e + 1) = scanBack lines s e := by
          rw [scanBack]
          rw [if_pos (by rw [h2p]; simp [h1])]
        rw [hfe, hsc, ih (by omega)]
        simp [lastNonBlankIn]
      · have hfe : List.filter (fun j => decide (s < j) && !isBlank (lines.getD j "")) [e + 1]
            = [] := by
          simp only [List.filter_cons, List.filter_nil]
          rw [if_neg (by simp [h1])]
        have hf2 : List.filter (fun j => decide (s < j) && !isBlank (lines.getD j ""))
            (List.range (e + 1)) = [] := by
          apply List.filter_eq_nil_iff.mpr
          intro j hj
          simp at hj ⊢
          omega
        have hsc : scanBack lines s (e + 1) = e + 1 := by
          rw [scanBack]
          rw [if_neg (by simp [h1])]
        rw [hfe, hf2, hsc]
        have hse : s = e + 1 := by omega
        simp [hse]
    · have h2 : isBlank (lines.getD (e + 1) "") = false := by
        revert h2p
        cases isBlank (lines.getD (e + 1) "") <;> simp
      by_cases h1 : s < e + 1
      · have hfe : List.filter (fun j => decide (s < j) && !isBlank (lines.getD j "")) [e + 1]
            = [e + 1] := by
          simp only [List.filter_cons, List.filter_nil]
          rw [if_pos (by rw [h2]; simp [h1])]
        have hsc : scanBack lines s (e + 1) = e + 1 := by
          rw [scanBack]
          rw [if_neg (by rw [h2]; simp)]
        rw [hfe, hsc]
        rfl
      · have hfe : List.filter (fun j => decide (s < j) && !isBlank (lines.getD j "")) [e + 1]
            = [] := by
          simp only [List.filter_cons, List.filter_nil]
          rw [if_neg (by simp [h1])]
        have hf2 : List.filter (fun j => decide (s < j) && !isBlank (lines.getD j ""))
            (List.range (e + 1)) = [] := by
          apply List.filter_eq_nil_iff.mpr
          intro j hj
          simp at hj ⊢
          omega
        have hsc : scanBack lines s (e + 1) = e + 1 := by
          rw [scanBack]
          rw [if_neg (by simp [h1])]
        rw [hfe, hf2, hsc]
        have hse : s = e + 1 := by omega
        simp [hse]

theorem sorted_find_first_gt (S : List Nat) : S.Sorted (· < ·) → ∀ (s i : Nat),
    i ∈ S → s < i → (∀ j ∈ S, s < j → i ≤ j) →
    S.find? (fun k => decide (s < k)) = some i := by
  induction S with
  | nil => intro _ s i hi; cases hi
  | cons a S ih =>
    intro hs s i hi hsi hmin
    by_cases ha : s < a
    · have h1 : i ≤ a := hmin a (List.mem_cons_self a S) ha
      have h2 : a ≤ i := by
        rcases List.mem_cons.mp hi with rfl | hi2
        · exact le_refl _
        · exact le_of_lt (List.rel_of_sorted_cons hs i hi2)
      have haeq : a = i := by omega
      rw [List.find?_cons, show decide (s < a) = true by simp [ha], haeq]
    · have hia : i ∈ S := by
        rcases List.mem_cons.mp hi with rfl | hi2
        · exact absurd hsi ha
        · exact hi2
      rw [List.find?_cons, show decide (s < a) = false by simp [ha]]
      exact ih hs.of_cons s i hia hsi (fun j hj => hmin j (List.mem_cons_of_mem a hj))

theorem sorted_filter_ge_split (S : List Nat) : S.Sorted (· < ·) → ∀ (i : Nat),
    S.filter (fun k => decide (i ≤ k)) =
      (if i ∈ S then [i] else []) ++ S.filter (fun k => decide (i + 1 ≤ k)) := by
  induction S with
  | nil => intro _ i; simp
  | cons a S ih =>
    intro hs i
    have hrel := List.rel_of_sorted_cons hs
    have htail := hs.of_cons
    rcases lt_trichotomy i a with hia | hia | hia
    · have hnotmem : i ∉ a :: S := by
        intro hmem
        rcases List.mem_cons.mp hmem with rfl | hmem2
        · exact absurd hia (lt_irrefl _)
        · exact absurd (hrel i hmem2) (by omega)
      rw [List.filter_cons, List.filter_cons]
      rw [if_pos (show decide (i ≤ a) = true by simp; omega)]
      rw [if_pos (show decide (i + 1 ≤ a) = true by simp; omega)]
      rw [if_neg hnotmem]
      have hcong : S.filter (fun k => decide (i ≤ k)) =
          S.filter (fun k => decide (i + 1 ≤ k)) := by
        apply List.filter_congr
        intro k hk
        have hak := hrel k hk
        simp
        omega
      rw [hcong]
      rfl
    · rw [hia]
      rw [List.filter_cons, List.filter_cons]
      rw [if_pos (show decide (a ≤ a) = true by simp)]
      rw [if_neg (show ¬decide (a + 1 ≤ a) = true by simp)]
      rw [if_pos (List.mem_cons_self a S)]
      have hcong : S.filter (fun k => decide (a ≤ k)) =
          S.filter (fun k => decide (a + 1 ≤ k)) := by
        apply List.filter_congr
        intro k hk
        have hak := hrel k hk
        simp
        omega
      rw [hcong]
      rfl
    · have hmemiff : (i ∈ a :: S) ↔ i ∈ S := by
        constructor
        · intro h
          rcases List.mem_cons.mp h with rfl | h2
          · exact absurd hia (lt_irrefl _)
          · exact h2
        · exact List.mem_cons_of_mem a
      rw [List.filter_cons, List.filter_cons]
      rw [if_neg (show ¬decide (i ≤ a) = true by simp; omega)]
      rw [if_neg (show ¬decide (i + 1 ≤ a) = true by simp; omega)]
      rw [ih htail i]
      by_cases hm : i ∈ S
      · rw [if_pos (show i ∈ a :: S from List.mem_cons_of_mem a hm), if_pos hm]
      · rw [if_neg (show i ∉ a :: S from fun h => hm (hmemiff.mp h)), if_neg hm]

theorem foldLoop_spec (lines : List String) : ∀ (rest : List String) (i : Nat)
    (ps : Option Nat) (acc : List (Nat × Nat)),
    rest = lines.drop i →
    (∀ s, ps = some s → s < i ∧ s ∈ headerIdxs lines ∧
      ∀ j, s < j → j < i → j ∉ headerIdxs lines) →
    foldLoop lines rest i ps acc =
      acc ++ (ps.toList ++ (headerIdxs lines).filter (fun k => decide (i ≤ k))).filterMap
        (fun s => (lastNonBlankIn lines s (sectionEndIdx lines s)).map (fun e => (s, e))) := by
  intro rest
  induction rest with
  | nil =>
    intro i ps acc hrest hinv
    have hlen : lines.length ≤ i := List.drop_eq_nil_iff.mp hrest.symm
    have hfilter : (headerIdxs lines).filter (fun k => decide (i ≤ k)) = [] := by
      apply List.filter_eq_nil_iff.mpr
      intro k hk
      have hk2 := ((mem_headerIdxs lines k).mp hk).1
      simp
      omega
    cases ps with
    | none =>
      simp only [foldLoop, hfilter]
      simp
    | some s =>
      obtain ⟨hsi, hmem, hno⟩ := hinv s rfl
      have hslen : s < lines.length := ((mem_headerIdxs lines s).mp hmem).1
      have hnext : nextHeaderAfter lines s = none := by
        unfold nextHeaderAfter
        apply List.find?_eq_none.mpr
        intro k hk
        have hk2 := (mem_headerIdxs lines k).mp hk
        intro hc
        simp at hc
        exact (hno k hc (by omega)) hk
      have hsec : sectionEndIdx lines s = lines.length - 1 := by
        unfold sectionEndIdx
        rw [hnext]
      have hscan := scanBack_spec lines s (lines.length - 1) (by omega)
      simp only [foldLoop, hfilter]
      cases hlnb : lastNonBlankIn lines s (lines.length - 1) with
      | some e =>
        have hse : s < e := lastNonBlankIn_gt lines s (lines.length - 1) e hlnb
        rw [hlnb] at hscan
        rw [if_pos (by rw [hscan]; exact hse)]
        rw [hscan]
        simp [List.filterMap_cons, hsec, hlnb]
      | none =>
        rw [hlnb] at hscan
        rw [if_neg (by rw [hscan]; exact lt_irrefl s)]
        simp [List.filterMap_cons, hsec, hlnb]
  | cons l rest ih =>
    intro i ps acc hrest hinv
    have hi_lt : i < lines.length := by
      by_contra h
      rw [List.drop_eq_nil_of_le (by omega)] at hrest
      cases hrest
    have hdec := List.drop_eq_getElem_cons (n := i) (l := lines) hi_lt
    rw [hdec] at hrest
    have hl : l = lines[i] := (List.cons.injEq _ _ _ _ ▸ hrest).1
    have hrest' : rest = lines.drop (i + 1) := (List.cons.injEq _ _ _ _ ▸ hrest).2
    have hgetd : lines.getD i "" = l := by
      rw [List.getD_eq_getElem lines "" hi_lt, hl]
    by_cases hhdr : isProjectHeader l = true
    · have himem : i ∈ headerIdxs lines :=
        (mem_headerIdxs lines i).mpr ⟨hi_lt, by rw [hgetd]; exact hhdr⟩
      have hsplit := sorted_filter_ge_split (headerIdxs lines) (headerIdxs_sorted lines) i
      rw [if_pos himem] at hsplit
      cases ps with
      | none =>
        have hstep : foldLoop lines (l :: rest) i none acc =
            foldLoop lines rest (i + 1) (some i) acc := by
          simp only [foldLoop, hhdr]
          rfl
        rw [hstep, ih (i + 1) (some i) acc hrest'
          (by intro s hs; injection hs with hs; subst hs
              exact ⟨by omega, himem, by intro j h1 h2; omega⟩)]
        rw [hsplit]
        rfl
      | some s =>
        obtain ⟨hsi, hmem, hno⟩ := hinv s rfl
        have hnext : nextHeaderAfter lines s = some i := by
          unfold nextHeaderAfter
          apply sorted_find_first_gt (headerIdxs lines) (headerIdxs_sorted lines) s i himem hsi
          intro j hj hsj
          by_contra hc
          exact (hno j hsj (by omega)) hj
        have hsec : sectionEndIdx lines s = i - 1 := by
          unfold sectionEndIdx
          rw [hnext]
        have hscan := scanBack_spec lines s (i - 1) (by omega)
        have hstep : foldLoop lines (l :: rest) i (some s) acc =
            foldLoop lines rest (i + 1) (some i)
              (if s < scanBack lines s (i - 1) then acc ++ [(s, scanBack lines s (i - 1))]
               else acc) := by
          simp only [foldLoop, hhdr]
          rfl
        rw [hstep, ih (i + 1) (some i) _ hrest'
          (by intro s' hs'; injection hs' with hs'; subst hs'
              exact ⟨by omega, himem, by intro j h1 h2; omega⟩)]
        rw [hsplit]
        cases hlnb : lastNonBlankIn lines s (i - 1) with
        | some e =>
          have hse : s < e := lastNonBlankIn_gt lines s (i - 1) e hlnb
          rw [hlnb] at hscan
          rw [if_pos (by rw [hscan]; exact hse)]
          rw [hscan]
          simp [List.filterMap_cons, hsec, hlnb]
        | none =>
          rw [hlnb] at hscan
          rw [if_neg (by rw [hscan]; exact lt_irrefl s)]
          simp [List.filterMap_cons, hsec, hlnb]
    · have hnmem : i ∉ headerIdxs lines := by
        intro hmem
        have := ((mem_headerIdxs lines i).mp hmem).2
        rw [hgetd] at this
        exact hhdr this
      have hsplit := sorted_filter_ge_split (headerIdxs lines) (headerIdxs_sorted lines) i
      rw [if_neg hnmem] at hsplit
      have hstep : foldLoop lines (l :: rest) i ps acc =
          foldLoop lines rest (i + 1) ps acc := by
        simp only [foldLoop, hhdr]
        cases ps <;> rfl
      rw [hstep, ih (i + 1) ps acc hrest'
        (by intro s hs
            obtain ⟨h1, h2, h3⟩ := hinv s hs
            refine ⟨by omega, h2, ?_⟩
            intro j hj1 hj2
            by_cases hji : j = i
            · subst hji; exact hnmem
            · exact h3 j hj1 (by omega))]
      rw [hsplit]
      rfl

theorem lastNonBlankIn_not_blank (lines : List String) (s e e' : Nat)
    (h : lastNonBlankIn lines s e = some e') : isBlank (lines.getD e' "") = false := by
  unfold lastNonBlankIn at h
  have hmem := List.mem_of_getLast?_eq_some h
  rw [List.mem_filter] at hmem
  have h2 := hmem.2
  simp at h2
  simpa using h2.2

/-- C7: the folding provider returns exactly one `(startLine, endLine)`
range per non-preamble section whose body holds a non-blank line
(`specFoldingRanges`: per header index `s`, the last non-blank line index
in the section's extent, when one exists); moreover every returned range
starts at a header line, properly spans at least one more line, and ends
on a non-blank line (so trailing blank lines are never included, and a
section with an all-blank body yields no range). -/
theorem provideFoldingRanges_spec :
    (∀ lines : List String, provideFoldingRanges lines = specFoldingRanges lines) ∧
    (∀ (lines : List String) (p : Nat × Nat), p ∈ provideFoldingRanges lines →
      isProjectHeader (lines.getD p.1 "") = true ∧ p.1 < p.2 ∧
      isBlank (lines.getD p.2 "") = false) := by
  have hmain : ∀ lines : List String, provideFoldingRanges lines = specFoldingRanges lines := by
    intro lines
    unfold provideFoldingRanges specFoldingRanges
    rw [foldLoop_spec lines lines 0 none [] (by simp) (by intro s hs; cases hs)]
    have hfilter : (headerIdxs lines).filter (fun k => decide (0 ≤ k)) = headerIdxs lines := by
      apply List.filter_eq_self.mpr
      intro k _
      simp
    rw [hfilter]
    rfl
  refine ⟨hmain, ?_⟩
  intro lines p hp
  rw [hmain lines] at hp
  unfold specFoldingRanges at hp
  rw [List.mem_filterMap] at hp
  obtain ⟨s, hs, hfs⟩ := hp
  cases hlnb : lastNonBlankIn lines s (sectionEndIdx lines s) with
  | none => rw [hlnb] at hfs; cases hfs
  | some e =>
    rw [hlnb] at hfs
    have hp2 : p = (s, e) := by simpa using hfs.symm
    subst hp2
    exact ⟨((mem_headerIdxs lines s).mp hs).2,
      lastNonBlankIn_gt lines s _ e hlnb,
      lastNonBlankIn_not_blank lines s _ e hlnb⟩

/-! ## C10: idempotence of Sort-By-Context -/

theorem parseLoop_nil_some (ps : List Project) (h : String) (acc : List String) (te : Nat) :
    parseLoop [] ps (some (h, acc, te)) = ps ++ [⟨h, acc⟩] := rfl

theorem parseLoop_cons_header_none (l : String) (rest : List String) (ps : List Project)
    (h1 : isProjectHeader l = true) :
    parseLoop (l :: rest) ps none = parseLoop rest ps (some (l, [], 0)) := by
  simp only [parseLoop, h1]
  rfl

theorem parseLoop_cons_header_some (l : String) (rest : List String) (ps : List Project)
    (h : String) (acc : List String) (te : Nat) (h1 : isProjectHeader l = true) :
    parseLoop (l :: rest) ps (some (h, acc, te)) =
      parseLoop rest (ps ++ [⟨h, acc⟩]) (some (l, [], 0)) := by
  simp only [parseLoop, h1]
  rfl

theorem parseLoop_cons_blank (l : String) (rest : List String) (ps : List Project)
    (h : String) (acc : List String) (te : Nat)
    (h1 : isProjectHeader l = false) (h2 : jsTrim l = "") :
    parseLoop (l :: rest) ps (some (h, acc, te)) =
      parseLoop rest ps (some (h, acc, te + 1)) := by
  simp only [parseLoop, h1, h2]
  rfl

theorem parseLoop_cons_item (l : String) (rest : List String) (ps : List Project)
    (h : String) (acc : List String) (te : Nat)
    (h1 : isProjectHeader l = false) (h2 : jsTrim l ≠ "") :
    parseLoop (l :: rest) ps (some (h, acc, te)) =
      parseLoop rest ps (some (h, acc ++ List.replicate te "" ++ [l], 0)) := by
  have h2b : (jsTrim l == "") = false := by
    cases hb : jsTrim l == "" with
    | true => exact absurd (by simpa using hb) h2
    | false => rfl
  simp only [parseLoop, h1, h2b]
  rfl

theorem parse_items_go (its : List String) : ∀ (rest : List String) (ps : List Project)
    (h : String) (acc : List String) (te : Nat),
    (∀ l ∈ its, isProjectHeader l = false) →
    (∀ l ∈ its, isBlank l = true → l = "") →
    (∀ l, its.getLast? = some l → isBlank l = false) →
    its ≠ [] →
    parseLoop (its ++ rest) ps (some (h, acc, te)) =
      parseLoop rest ps (some (h, acc ++ List.replicate te "" ++ its, 0)) := by
  induction its with
  | nil => intro _ _ _ _ _ _ _ _ hne; exact absurd rfl hne
  | cons x its ih =>
    intro rest ps h acc te hnh hbl hlast _
    have hx_nh : isProjectHeader x = false := hnh x (List.mem_cons_self x its)
    by_cases hxb : isBlank x = true
    · have hx0 : x = "" := hbl x (List.mem_cons_self x its) hxb
      have hne : its ≠ [] := by
        intro hnil
        subst hnil
        have := hlast x rfl
        rw [this] at hxb
        cases hxb
      rw [List.cons_append,
        parseLoop_cons_blank x (its ++ rest) ps h acc te hx_nh (by simpa [isBlank, hx0] using hxb)]
      rw [ih rest ps h acc (te + 1)
        (fun l hl => hnh l (List.mem_cons_of_mem x hl))
        (fun l hl => hbl l (List.mem_cons_of_mem x hl))
        (fun l hl => hlast l (by
          cases its with
          | nil => exact absurd rfl hne
          | cons b bs => rw [List.getLast?_cons_cons]; exact hl))
        hne]
      have hrep : acc ++ List.replicate (te + 1) "" ++ its
          = acc ++ List.replicate te "" ++ x :: its := by
        rw [hx0, List.replicate_succ']
        simp
      rw [hrep]
    · have hxb2 : jsTrim x ≠ "" := by
        intro hc
        exact hxb (by simp [isBlank, hc])
      rw [List.cons_append,
        parseLoop_cons_item x (its ++ rest) ps h acc te hx_nh hxb2]
      cases hits : its with
      | nil =>
        subst hits
        simp
      | cons b bs =>
        rw [← hits]
        have hne2 : its ≠ [] := by rw [hits]; exact List.cons_ne_nil b bs
        rw [ih rest ps h (acc ++ List.replicate te "" ++ [x]) 0
          (fun l hl => hnh l (List.mem_cons_of_mem x hl))
          (fun l hl => hbl l (List.mem_cons_of_mem x hl))
          (fun l hl => hlast l (by
            rw [hits] at hl ⊢
            rw [List.getLast?_cons_cons]
            exact hl))
          hne2]
        have hrep : acc ++ List.replicate te "" ++ [x] ++ List.replicate 0 "" ++ its
            = acc ++ List.replicate te "" ++ x :: its := by
          simp
        rw [hrep]

theorem rebuild_cons (p : Project) (rest : List Project) :
    rebuild (p :: rest) =
      p.header :: (p.items ++ (if rest.isEmpty then [] else "" :: rebuild rest)) := by
  cases rest with
  | nil => simp [rebuild]
  | cons q r => simp [rebuild]

theorem parse_rebuild_go (P : List Project) : ∀ (ps : List Project) (h : String)
    (acc : List String) (te : Nat),
    (∀ p ∈ P, GoodProject p) →
    parseLoop ((if P.isEmpty then [] else [""]) ++ rebuild P) ps (some (h, acc, te)) =
      (ps ++ [⟨h, acc⟩]) ++ P := by
  induction P with
  | nil =>
    intro ps h acc te _
    rw [show ((if ([] : List Project).isEmpty then [] else [""]) : List String) ++ rebuild []
        = [] from rfl]
    rw [parseLoop_nil_some]
    simp
  | cons p rest ih =>
    intro ps h acc te hgood
    obtain ⟨hph, hpnh, hpbl, hplast⟩ := hgood p (List.mem_cons_self p rest)
    have hgood' : ∀ q ∈ rest, GoodProject q :=
      fun q hq => hgood q (List.mem_cons_of_mem p hq)
    rw [show (if (p :: rest).isEmpty then ([] : List String) else [""]) = [""] by simp]
    rw [rebuild_cons]
    rw [List.singleton_append]
    rw [parseLoop_cons_blank "" _ ps h acc te (by decide) (by decide)]
    rw [parseLoop_cons_header_some p.header _ ps h acc (te + 1) hph]
    rw [show p.items ++ (if rest.isEmpty then [] else "" :: rebuild rest)
        = p.items ++ ((if rest.isEmpty then [] else [""]) ++ rebuild rest) by
      cases rest <;> simp [rebuild]]
    cases hits : p.items with
    | nil =>
      rw [List.nil_append]
      have hih := ih (ps ++ [(⟨h, acc⟩ : Project)]) p.header [] 0 hgood'
      rw [hih]
      have hp : (⟨p.header, []⟩ : Project) = p := by
        cases p with
        | mk ph pits => simp at hits; rw [hits]
      rw [hp]
      simp
    | cons b bs =>
      rw [← hits]
      have hne : p.items ≠ [] := by rw [hits]; exact List.cons_ne_nil b bs
      have hpi := parse_items_go p.items ((if rest.isEmpty then [] else [""]) ++ rebuild rest)
        (ps ++ [(⟨h, acc⟩ : Project)]) p.header [] 0 hpnh hpbl hplast hne
      rw [hpi]
      have hih := ih (ps ++ [(⟨h, acc⟩ : Project)]) p.header
        ([] ++ List.replicate 0 "" ++ p.items) 0 hgood'
      rw [hih]
      have hp : (⟨p.header, [] ++ List.replicate 0 "" ++ p.items⟩ : Project) = p := by
        cases p with
        | mk ph pits => simp
      rw [hp]
      simp

theorem parseProjects_rebuild (P : List Project)
    (hgood : ∀ p ∈ P, GoodProject p) :
    parseProjects (rebuild P) = P := by
  cases P with
  | nil => rfl
  | cons p rest =>
    obtain ⟨hph, hpnh, hpbl, hplast⟩ := hgood p (List.mem_cons_self p rest)
    have hgood' : ∀ q ∈ rest, GoodProject q :=
      fun q hq => hgood q (List.mem_cons_of_mem p hq)
    unfold parseProjects
    rw [rebuild_cons]
    rw [parseLoop_cons_header_none p.header _ [] hph]
    rw [show p.items ++ (if rest.isEmpty then [] else "" :: rebuild rest)
        = p.items ++ ((if rest.isEmpty then [] else [""]) ++ rebuild rest) by
      cases rest <;> simp [rebuild]]
    cases hits : p.items with
    | nil =>
      rw [List.nil_append]
      have hpr := parse_rebuild_go rest [] p.header [] 0 hgood'
      rw [hpr]
      have hp : (⟨p.header, []⟩ : Project) = p := by
        cases p with
        | mk ph pits => simp at hits; rw [hits]
      rw [hp]
      simp
    | cons b bs =>
      rw [← hits]
      have hne : p.items ≠ [] := by rw [hits]; exact List.cons_ne_nil b bs
      have hpi := parse_items_go p.items ((if rest.isEmpty then [] else [""]) ++ rebuild rest)
        [] p.header [] 0 hpnh hpbl hplast hne
      rw [hpi]
      have hpr := parse_rebuild_go rest [] p.header ([] ++ List.replicate 0 "" ++ p.items) 0 hgood'
      rw [hpr]
      have hp : (⟨p.header, [] ++ List.replicate 0 "" ++ p.items⟩ : Project) = p := by
        cases p with
        | mk ph pits => simp
      rw [hp]
      simp

theorem parseLoop_cons_skip (l : String) (rest : List String) (ps : List Project)
    (h1 : isProjectHeader l = false) :
    parseLoop (l :: rest) ps none = parseLoop rest ps none := by
  simp only [parseLoop, h1]
  rfl

theorem parseLoop_good (ls : List String) : ∀ (ps : List Project)
    (cur : Option (String × List String × Nat)),
    (∀ p ∈ ps, GoodProject p) →
    (∀ h acc te, cur = some (h, acc, te) →
      isProjectHeader h = true ∧
      (∀ l ∈ acc, isProjectHeader l = false) ∧
      (∀ l ∈ acc, isBlank l = true → l = "") ∧
      (∀ l, acc.getLast? = some l → isBlank l = false)) →
    ∀ p ∈ parseLoop ls ps cur, GoodProject p := by
  induction ls with
  | nil =>
    intro ps cur hps hcur p hp
    cases cur with
    | none => exact hps p hp
    | some c =>
      obtain ⟨h, acc, te⟩ := c
      rw [parseLoop_nil_some] at hp
      rcases List.mem_append.mp hp with hp2 | hp2
      · exact hps p hp2
      · have hpe : p = ⟨h, acc⟩ := by simpa using hp2
        obtain ⟨c1, c2, c3, c4⟩ := hcur h acc te rfl
        rw [hpe]
        exact ⟨c1, c2, c3, c4⟩
  | cons l ls ih =>
    intro ps cur hps hcur p hp
    by_cases hhdr : isProjectHeader l = true
    · cases cur with
      | none =>
        rw [parseLoop_cons_header_none l ls ps hhdr] at hp
        refine ih ps (some (l, [], 0)) hps ?_ p hp
        intro h2 acc2 te2 hc
        injection hc with hc
        injection hc with e1 hc
        injection hc with e2 e3
        subst e1; subst e2; subst e3
        exact ⟨hhdr, (by intro x hx; cases hx), (by intro x hx; cases hx),
          (by intro x hx; cases hx)⟩
      | some c =>
        obtain ⟨h, acc, te⟩ := c
        rw [parseLoop_cons_header_some l ls ps h acc te hhdr] at hp
        obtain ⟨c1, c2, c3, c4⟩ := hcur h acc te rfl
        refine ih (ps ++ [⟨h, acc⟩]) (some (l, [], 0)) ?_ ?_ p hp
        · intro q hq
          rcases List.mem_append.mp hq with hq2 | hq2
          · exact hps q hq2
          · have hqe : q = ⟨h, acc⟩ := by simpa using hq2
            rw [hqe]
            exact ⟨c1, c2, c3, c4⟩
        · intro h2 acc2 te2 hc
          injection hc with hc
          injection hc with e1 hc
          injection hc with e2 e3
          subst e1; subst e2; subst e3
          exact ⟨hhdr, (by intro x hx; cases hx), (by intro x hx; cases hx),
            (by intro x hx; cases hx)⟩
    · have hhdrf : isProjectHeader l = false := by
        cases hv : isProjectHeader l with
        | true => exact absurd hv hhdr
        | false => rfl
      cases cur with
      | none =>
        rw [parseLoop_cons_skip l ls ps hhdrf] at hp
        exact ih ps none hps hcur p hp
      | some c =>
        obtain ⟨h, acc, te⟩ := c
        obtain ⟨c1, c2, c3, c4⟩ := hcur h acc te rfl
        by_cases hbl : jsTrim l = ""
        · rw [parseLoop_cons_blank l ls ps h acc te hhdrf hbl] at hp
          refine ih ps (some (h, acc, te + 1)) hps ?_ p hp
          intro h2 acc2 te2 hc
          injection hc with hc
          injection hc with e1 hc
          injection hc with e2 e3
          subst e1; subst e2; subst e3
          exact ⟨c1, c2, c3, c4⟩
        · rw [parseLoop_cons_item l ls ps h acc te hhdrf hbl] at hp
          refine ih ps (some (h, acc ++ List.replicate te "" ++ [l], 0)) hps ?_ p hp
          intro h2 acc2 te2 hc
          injection hc with hc
          injection hc with e1 hc
          injection hc with e2 e3
          subst e1; subst e2; subst e3
          refine ⟨c1, ?_, ?_, ?_⟩
          · intro x hx
            rcases List.mem_append.mp hx with hx2 | hx2
            · rcases List.mem_append.mp hx2 with hx3 | hx3
              · exact c2 x hx3
              · rw [List.eq_of_mem_replicate hx3]
                decide
            · have hxl : x = l := by simpa using hx2
              rw [hxl]
              exact hhdrf
          · intro x hx hxb
            rcases List.mem_append.mp hx with hx2 | hx2
            · rcases List.mem_append.mp hx2 with hx3 | hx3
              · exact c3 x hx3 hxb
              · exact List.eq_of_mem_replicate hx3
            · have hxl : x = l := by simpa using hx2
              rw [hxl] at hxb
              exact absurd (by simpa [isBlank] using hxb) hbl
          · intro x hx
            rw [show acc ++ List.replicate te "" ++ [l]
                = (acc ++ List.replicate te "") ++ [l] by simp,
              List.getLast?_concat] at hx
            injection hx with hx
            rw [← hx]
            cases hv : isBlank l with
            | true => exact absurd (by simpa [isBlank] using hv) hbl
            | false => rfl

theorem parseProjects_good (lines : List String) :
    ∀ p ∈ parseProjects lines, GoodProject p := by
  apply parseLoop_good lines [] none
  · intro p hp; cases hp
  · intro h acc te hc; cases hc

theorem sortKey_empty : sortKey "" = "" := rfl

theorem itemLe_to_empty (x l : String) (hl : l = "") (h : itemLe x l = true) :
    sortKey x = "" := by
  subst hl
  have h2 : strLe (sortKey x) "" = true := h
  exact strLe_nil_right _ h2

theorem sortProject_good (p : Project) (hg : GoodProject p) :
    GoodProject (sortProject p) := by
  obtain ⟨h1, h2, h3, h4⟩ := hg
  refine ⟨h1, ?_, ?_, ?_⟩
  · intro l hl
    exact h2 l (List.mem_mergeSort.mp hl)
  · intro l hl hb
    exact h3 l (List.mem_mergeSort.mp hl) hb
  · intro l hl
    have hsp : (sortProject p).items = p.items.mergeSort itemLe := rfl
    rw [hsp] at hl
    by_contra hbne
    have hb : isBlank l = true := by
      cases hbv : isBlank l with
      | true => rfl
      | false => exact absurd hbv hbne
    have hlmem : l ∈ p.items :=
      List.mem_mergeSort.mp (List.mem_of_getLast?_eq_some hl)
    have hl0 : l = "" := h3 l hlmem hb
    obtain ⟨ys, hys⟩ := List.getLast?_eq_some_iff.mp hl
    have hsorted : (p.items.mergeSort itemLe).Pairwise (fun a b => itemLe a b = true) :=
      List.sorted_mergeSort (fun a b c => itemLe_trans a b c)
        (fun a b => by rcases itemLe_total a b with h | h <;> simp [h]) p.items
    have hkeys : ∀ x ∈ p.items, sortKey x = "" := by
      intro x hx
      have hx2 : x ∈ p.items.mergeSort itemLe := List.mem_mergeSort.mpr hx
      rw [hys] at hx2 hsorted
      rcases List.mem_append.mp hx2 with hxy | hxl
      · have hpair := (List.pairwise_append.mp hsorted).2.2
        have hle : itemLe x l = true := hpair x hxy l (by simp)
        exact itemLe_to_empty x l hl0 hle
      · have hxeq : x = l := by simpa using hxl
        rw [hxeq, hl0]
        rfl
    have hpw : p.items.Pairwise (fun a b => itemLe a b = true) := by
      apply List.pairwise_of_forall_mem_list
      intro a ha b hb2
      show itemLe a b = true
      unfold itemLe
      rw [hkeys a ha, hkeys b hb2]
      rfl
    have hms : p.items.mergeSort itemLe = p.items := List.mergeSort_of_sorted hpw
    rw [hms] at hl
    have := h4 l hl
    rw [this] at hb
    cases hb

/-- C10: Sort-By-Context is idempotent — re-sorting a sorted document
reproduces it exactly.  The first pass normalizes the text (preamble
dropped, trailing blanks dropped, single blank separators); re-parsing the
rebuilt text recovers the same projects, and re-sorting already-sorted
items is the identity. -/
theorem sortByContext_idempotent (lines : List String) :
    sortByContext (sortByContext lines) = sortByContext lines := by
  unfold sortByContext
  have hgood : ∀ p ∈ (parseProjects lines).map sortProject, GoodProject p := by
    intro p hp
    rw [List.mem_map] at hp
    obtain ⟨q, hq, rfl⟩ := hp
    exact sortProject_good q (parseProjects_good lines q hq)
  rw [parseProjects_rebuild ((parseProjects lines).map sortProject) hgood]
  rw [List.map_map]
  have hcong : ∀ q ∈ parseProjects lines, (sortProject ∘ sortProject) q = sortProject q := by
    intro q _
    show sortProject (sortProject q) = sortProject q
    unfold sortProject
    have hms : (q.items.mergeSort itemLe).mergeSort itemLe = q.items.mergeSort itemLe :=
      List.mergeSort_of_sorted
        (List.sorted_mergeSort (fun a b c => itemLe_trans a b c)
          (fun a b => by rcases itemLe_total a b with h | h <;> simp [h]) q.items)
    rw [hms]
  rw [List.map_congr_left hcong]
